import Mathlib

/-! A verification development for the LEED spectral-feature measurement
engine.  The definitions below model the pandas accessor classes of
`leed/accessors` (`Base`, `CalcArea`, `CalcPEW`, `calcPseudoContinuum`,
`CalcVelocity`, `SpectrumAccessor`).  Floating-point quantities are modelled
exactly: plain rational arithmetic is used where every value involved stays
finite, and the `FP` type (NaN, signed infinities, finite rationals) is used
where NaN or infinities are the point of a statement.  Rounding is not
modelled: arithmetic on finite values is exact. -/

namespace LEED

/-- Exact model of an IEEE-754 double: `nan`, a signed infinity (`inf true`
is `+∞`, `inf false` is `-∞`), or a finite value carried as an exact
rational.  Zeros are unsigned; a zero divisor behaves as `+0`, which is the
sign every code path modelled in this development produces. -/
inductive FP where
  | nan : FP
  | inf : Bool → FP
  | fin : ℚ → FP
deriving DecidableEq, Repr

namespace FP

/-- True exactly on finite values (neither NaN nor an infinity). -/
def isFinite : FP → Bool
  | fin _ => true
  | _ => false

/-- IEEE negation: flips the sign of an infinity, negates a finite value. -/
def neg : FP → FP
  | nan => nan
  | inf s => inf (!s)
  | fin q => fin (-q)

/-- IEEE addition: NaN propagates; opposite infinities give NaN. -/
def add : FP → FP → FP
  | nan, _ => nan
  | _, nan => nan
  | inf s, inf t => if s = t then inf s else nan
  | inf s, fin _ => inf s
  | fin _, inf t => inf t
  | fin a, fin b => fin (a + b)

/-- IEEE subtraction, as `x + (-y)`. -/
def sub (x y : FP) : FP := add x (neg y)

/-- IEEE multiplication: NaN propagates; `∞ * 0` is NaN; signs multiply. -/
def mul : FP → FP → FP
  | nan, _ => nan
  | _, nan => nan
  | inf s, inf t => inf (s == t)
  | inf s, fin q => if q = 0 then nan else inf (s == decide (0 < q))
  | fin q, inf t => if q = 0 then nan else inf (t == decide (0 < q))
  | fin a, fin b => fin (a * b)

/-- IEEE division: NaN propagates; `∞ / ∞` is NaN; a finite value divided by
an infinity is zero; division by zero gives NaN for `0 / 0` and a signed
infinity otherwise (the zero divisor acting as `+0`). -/
def div : FP → FP → FP
  | nan, _ => nan
  | _, nan => nan
  | inf _, inf _ => nan
  | inf s, fin q => if q < 0 then inf (!s) else inf s
  | fin _, inf _ => fin 0
  | fin a, fin b =>
      if b = 0 then (if a = 0 then nan else inf (decide (0 < a))) else fin (a / b)

end FP

/-- Speed of light in km/s (`astropy.constants.c.to(units.km / units.s).value`),
as an exact rational: `c = 299792458 m/s`. -/
def speedOfLight : ℚ := 299792458 / 1000

namespace CalcVelocity

/-- Model of `CalcVelocity.velocity` from `leed/accessors/calcVelocity.py`,
as a function of the fitted Gaussian mean `gaussAvg` (`gaussFit.avg`, which
is NaN when the `curve_fit` call failed) and the rest-frame wavelength
`restFrame`.  The source computes
`speedOfLight * (((((restFrame - avg) / restFrame) + 1) ** 2 - 1) /
((((restFrame - avg) / restFrame) + 1) ** 2 + 1))`; the square `x ** 2`
is modelled as `x * x`. -/
def velocity (gaussAvg restFrame : FP) : FP :=
  FP.mul (FP.fin speedOfLight)
    (FP.div
      (FP.sub
        (FP.mul (FP.add (FP.div (FP.sub restFrame gaussAvg) restFrame) (FP.fin 1))
                (FP.add (FP.div (FP.sub restFrame gaussAvg) restFrame) (FP.fin 1)))
        (FP.fin 1))
      (FP.add
        (FP.mul (FP.add (FP.div (FP.sub restFrame gaussAvg) restFrame) (FP.fin 1))
                (FP.add (FP.div (FP.sub restFrame gaussAvg) restFrame) (FP.fin 1)))
        (FP.fin 1)))

end CalcVelocity

instance {ε α : Type} [DecidableEq ε] [DecidableEq α] :
    DecidableEq (Except ε α) := fun x y =>
  match x, y with
  | .ok a, .ok b =>
      if h : a = b then isTrue (congrArg _ h)
      else isFalse (fun hc => h (Except.ok.inj hc))
  | .error a, .error b =>
      if h : a = b then isTrue (congrArg _ h)
      else isFalse (fun hc => h (Except.error.inj hc))
  | .ok _, .error _ => isFalse (fun hc => Except.noConfusion hc)
  | .error _, .ok _ => isFalse (fun hc => Except.noConfusion hc)

/-- A Python exception class, used as the error component of fallible
operations. -/
inductive PyErr where
  | indexError : PyErr
  | typeError : PyErr
  | valueError : PyErr
  | samplingRangeError : PyErr
deriving DecidableEq, Repr

/-- A `pandas.Series` of spectroscopic data: the index (`wave`, wavelengths)
and the data (`flux`).  The two lists are aligned positionally; theorems
assume matching lengths where the code does. -/
structure Series where
  wave : List ℚ
  flux : List ℚ
deriving DecidableEq, Repr

namespace Base

/-- Model of `pandas.Index.is_monotonic` (an alias of
`is_monotonic_increasing`): true when consecutive values are equal or
increasing, so duplicates are allowed. -/
def isMonotonic : List ℚ → Bool
  | [] => true
  | [_] => true
  | a :: b :: rest => a ≤ b && isMonotonic (b :: rest)

/-- Model of `Base.validate` from `leed/accessors/base.py`: raises
`ValueError` when `self._obj.index.is_monotonic` is false, otherwise
returns. -/
def validate (wave : List ℚ) : Except PyErr Unit :=
  if isMonotonic wave then Except.ok () else Except.error PyErr.valueError

end Base

namespace calcPseudoContinuum

/-- Model of `calcPseudoContinuum.fitPseudoContinuum` from
`leed/accessors/calcPseudoContinuum.py`.  The source reads the first and
last wavelength and flux samples (`self.wave[0]`, `self.wave[-1]`,
`self.flux[0]`, `self.flux[-1]` — an `IndexError` on an empty series), then
computes `m = (y0 - y1) / (x0 - x1)` and `b = -m * x0 + y0` in float
arithmetic and returns `pd.Series(m * self.wave + b, index=self.wave)`.
No error is raised for a degenerate window `x0 = x1`: the float division by
zero produces NaN or a signed infinity. -/
def fitPseudoContinuum (s : Series) : Except PyErr (List (ℚ × FP)) :=
  match s.wave.head?, s.wave.getLast?, s.flux.head?, s.flux.getLast? with
  | some x0, some x1, some y0, some y1 =>
      let m := FP.div (FP.sub (FP.fin y0) (FP.fin y1)) (FP.sub (FP.fin x0) (FP.fin x1))
      let b := FP.add (FP.neg (FP.mul m (FP.fin x0))) (FP.fin y0)
      Except.ok (s.wave.map (fun w => (w, FP.add (FP.mul m (FP.fin w)) b)))
  | _, _, _, _ => Except.error PyErr.indexError

end calcPseudoContinuum

/-- Python positional indexing `l[0]`.  An empty list raises `IndexError` in
Python; that case is not modelled (every theorem using `pyFirst` assumes a
non-empty list) and returns the default `d`. -/
def pyFirst {α : Type} (d : α) : List α → α
  | [] => d
  | a :: _ => a

/-- Python positional indexing `l[-1]` (the last element).  An empty list
raises `IndexError` in Python; that case is not modelled (every theorem using
`pyLast` assumes a non-empty list) and returns the default `d`. -/
def pyLast {α : Type} (d : α) : List α → α
  | [] => d
  | [a] => a
  | _ :: b :: t => pyLast d (b :: t)

/-- Model of `numpy.min` of an array.  `np.min` raises on an empty array; that case is
not modelled (theorems assume non-empty input). -/
def npMin : List ℚ → ℚ
  | [] => 0
  | a :: t => t.foldl min a

/-- Model of `numpy.max` of an array.  `np.max` raises on an empty array; that case is
not modelled (theorems assume non-empty input). -/
def npMax : List ℚ → ℚ
  | [] => 0
  | a :: t => t.foldl max a

/-- Model of `numpy.trapz(y=y, x=x)`: composite trapezoidal integration,
`Σ (x[i+1] - x[i]) * (y[i] + y[i+1]) / 2`.  Fewer than two samples give 0. -/
def trapz (y x : List ℚ) : ℚ :=
  match y, x with
  | y1 :: y2 :: ys, x1 :: x2 :: xs =>
      (x2 - x1) * (y1 + y2) / 2 + trapz (y2 :: ys) (x2 :: xs)
  | _, _ => 0

/-- Model of `numpy.interp` over a list of `(x, y)` knots with increasing `x`
coordinates: linear interpolation between knots, and CLAMPING outside the
knot range (`fp[0]` below the first knot, `fp[-1]` above the last one —
`np.interp` does not extrapolate). -/
def npInterpP (x : ℚ) : List (ℚ × ℚ) → ℚ
  | [] => 0
  | [(_, y1)] => y1
  | (x1, y1) :: (x2, y2) :: rest =>
      if x ≤ x1 then y1
      else if x ≤ x2 then y1 + (y2 - y1) * (x - x1) / (x2 - x1)
      else npInterpP x ((x2, y2) :: rest)

/-- Model of `numpy.interp(x, xp, fp)` for increasing `xp`.  `np.interp` raises on an
empty `xp`; that case is not modelled (theorems assume non-empty input). -/
def npInterp (x : ℚ) (xp fp : List ℚ) : ℚ := npInterpP x (xp.zip fp)

namespace CalcArea

/-- Model of `CalcArea._continuum_area` from `leed/accessors/calcArea.py`:
`y1 = np.interp(self.wave.min(), continuum.index, continuum)`,
`y2 = np.interp(self.wave.max(), continuum.index, continuum)`, returning
`(self.wave[-1] - self.wave[0]) * (y1 + y2) / 2`. -/
def continuum_area (s continuum : Series) : ℚ :=
  (pyLast 0 s.wave - pyFirst 0 s.wave) *
    (npInterp (npMin s.wave) continuum.wave continuum.flux
      + npInterp (npMax s.wave) continuum.wave continuum.flux) / 2

/-- Model of `CalcArea._flux_area`: `np.trapz(y=self.flux, x=self.wave)`. -/
def flux_area (s : Series) : ℚ := trapz s.flux s.wave

/-- Model of `CalcArea.area`: `self._continuum_area(continuum) - self._flux_area()`. -/
def area (s continuum : Series) : ℚ := continuum_area s continuum - flux_area s

/-- Modelled from the claim's words for comparison with the source: linear
interpolation between knots that continues LINEARLY (extrapolates along the
boundary segments) outside the knot range. -/
def linEvalP (x : ℚ) : List (ℚ × ℚ) → ℚ
  | [] => 0
  | [(_, y1)] => y1
  | [(x1, y1), (x2, y2)] => y1 + (y2 - y1) * (x - x1) / (x2 - x1)
  | (x1, y1) :: (x2, y2) :: rest =>
      if x ≤ x2 then y1 + (y2 - y1) * (x - x1) / (x2 - x1)
      else linEvalP x ((x2, y2) :: rest)

/-- Interpolating/extrapolating evaluation of a continuum at `x` (the claim's
`y` function for C2). -/
def linEval (continuum : Series) (x : ℚ) : ℚ :=
  linEvalP x (continuum.wave.zip continuum.flux)

/-- The continuum-area formula as claim C2 states it: trapezoid of the
interpolated/extrapolated continuum values at the series' first and last
wavelengths. -/
def continuumAreaClaim (s continuum : Series) : ℚ :=
  (pyLast 0 s.wave - pyFirst 0 s.wave) *
    (linEval continuum (pyFirst 0 s.wave) + linEval continuum (pyLast 0 s.wave)) / 2

/-- Evaluation of a continuum at `x` with endpoint clamping: the value is the
continuum's first (respectively last) flux when `x` lies at or outside the
continuum's own domain, and the linear interpolation between the bracketing
knots inside it.  This is `numpy.interp` semantics, stated piecewise. -/
def clampEval (continuum : Series) (x : ℚ) : ℚ :=
  if x ≤ pyFirst 0 continuum.wave then pyFirst 0 continuum.flux
  else if pyLast 0 continuum.wave ≤ x then pyLast 0 continuum.flux
  else linEval continuum x

end CalcArea

namespace CalcPEW

/-- Model of `numpy.trapz` over float values that may be NaN or infinite: the same
composite trapezoid as `trapz`, with IEEE arithmetic. -/
def trapzFP (y : List FP) (x : List ℚ) : FP :=
  match y, x with
  | y1 :: y2 :: ys, x1 :: x2 :: xs =>
      FP.add (FP.div (FP.mul (FP.fin (x2 - x1)) (FP.add y1 y2)) (FP.fin 2))
        (trapzFP (y2 :: ys) (x2 :: xs))
  | _, _ => FP.fin 0

/-- Model of `CalcPEW.pew` from `leed/accessors/calcPEW.py`:
`(self.wave[-1] - self.wave[0]) - np.trapz(y=(self._obj / continuum), x=self.wave)`.
The pandas division `self._obj / continuum` aligns on the index; it is
modelled for the aligned case the claims consider (the continuum shares the
series' wavelengths), where it is element-wise.  The division is IEEE float
division, so a zero continuum value produces NaN or an infinity. -/
def pew (s continuum : Series) : FP :=
  FP.sub (FP.fin (pyLast 0 s.wave - pyFirst 0 s.wave))
    (trapzFP (List.zipWith (fun f c => FP.div (FP.fin f) (FP.fin c))
      s.flux continuum.flux) s.wave)

end CalcPEW

namespace SpectrumAccessor

/-- Python slice `l[a : b]` with integer bounds: a negative bound counts from
the end of the list, both bounds clamp to the list's range, and the end
index is exclusive. -/
def pySlice {α : Type} (l : List α) (a b : ℤ) : List α :=
  let n : ℤ := l.length
  let a' : ℤ := if a < 0 then max (n + a) 0 else min a n
  let b' : ℤ := if b < 0 then max (n + b) 0 else min b n
  (l.take b'.toNat).drop a'.toNat

/-- The perturbation grid of `sampleFeatureProperties`: the source iterates
`for i in np.arange(-nstep, nstep + 1)` (ascending) and, inside it,
`for j in np.arange(nstep, -nstep - 1, -1)` (descending). -/
def perturbPairs (nstep : ℕ) : List (ℤ × ℤ) :=
  (List.range (2 * nstep + 1)).flatMap fun (a : ℕ) =>
    (List.range (2 * nstep + 1)).map fun (b : ℕ) =>
      ((a : ℤ) - (nstep : ℤ), (nstep : ℤ) - (b : ℤ))

/-- The body of the resampling loop of
`SpectrumAccessor.sampleFeatureProperties` (`leed/accessors/spectrumAccessor.py`).
For each perturbation pair `(i, j)` in order the source computes
`idxSampleStart = idxStart + i` and `idxSampleEnd = idxEnd + j`, raises
`SamplingRangeError` when `idxSampleStart < 0 or idxSampleEnd >= len(self._obj)`,
and otherwise measures `sample = self._obj[idxSampleStart:idxSampleEnd]`.
The measurement step itself raises on a degenerate sample: an empty sample
hits `IndexError` inside the pseudo-continuum fit (`self.wave[0]`), and a
sample with fewer than 4 points makes `scipy.optimize.curve_fit` raise
`TypeError` (more free parameters than data points).  Otherwise the callback
receives the sample.  The result is the list of samples handed to the
callback, in order, paired with the first error raised (if any). -/
def processPairs (pts : List (ℚ × ℚ)) (idxStart idxEnd : ℕ) :
    List (ℤ × ℤ) → List (List (ℚ × ℚ)) × Option PyErr
  | [] => ([], none)
  | (i, j) :: rest =>
      let a : ℤ := (idxStart : ℤ) + i
      let b : ℤ := (idxEnd : ℤ) + j
      if a < 0 ∨ (pts.length : ℤ) ≤ b then ([], some PyErr.samplingRangeError)
      else
        let sample := pySlice pts a b
        if sample.length = 0 then ([], some PyErr.indexError)
        else if sample.length < 4 then ([], some PyErr.typeError)
        else
          let r := processPairs pts idxStart idxEnd rest
          (sample :: r.1, r.2)

/-- Model of the control flow of `SpectrumAccessor.sampleFeatureProperties`.
The spectrum is the list of `(wavelength, flux)` pairs of the series.  The
source computes `idxStart = np.where(self.wave == featStart)[0][0]` — an
uncaught `IndexError` when `featStart` is not exactly equal to any
wavelength — and likewise `idxEnd`; raises
`ValueError` when `idxEnd - idxStart <= 10`; and then runs the nested
perturbation loops.  The aggregation of the measured quantities after the
loop does not affect control flow or the callback sequence and is not
modelled.  The result records the sequence of samples handed to the
callback, in order, and the error (if any) that aborted the call. -/
def sampleFeatureProperties (pts : List (ℚ × ℚ)) (featStart featEnd : ℚ)
    (nstep : ℕ) : List (List (ℚ × ℚ)) × Option PyErr :=
  match pts.findIdx? (fun p => p.1 == featStart) with
  | none => ([], some PyErr.indexError)
  | some idxStart =>
      match pts.findIdx? (fun p => p.1 == featEnd) with
      | none => ([], some PyErr.indexError)
      | some idxEnd =>
          if (idxEnd : ℤ) - (idxStart : ℤ) ≤ 10 then ([], some PyErr.valueError)
          else processPairs pts idxStart idxEnd (perturbPairs nstep)

end SpectrumAccessor

open SpectrumAccessor

/-- A concrete 20-sample spectrum for witnesses: wavelengths `0 .. 19`, all
fluxes zero. -/
def pts20 : List (ℚ × ℚ) :=
  [(0, 0), (1, 0), (2, 0), (3, 0), (4, 0), (5, 0), (6, 0), (7, 0), (8, 0),
   (9, 0), (10, 0), (11, 0), (12, 0), (13, 0), (14, 0), (15, 0), (16, 0),
   (17, 0), (18, 0), (19, 0)]


@[simp] theorem FP.add_fin_fin (a b : ℚ) : add (fin a) (fin b) = fin (a + b) := rfl

@[simp] theorem FP.sub_fin_fin (a b : ℚ) : sub (fin a) (fin b) = fin (a - b) := by
  show fin (a + -b) = fin (a - b)
  rw [← sub_eq_add_neg]

@[simp] theorem FP.mul_fin_fin (a b : ℚ) : mul (fin a) (fin b) = fin (a * b) := rfl

theorem FP.div_fin_fin (a b : ℚ) (hb : b ≠ 0) : div (fin a) (fin b) = fin (a / b) := by
  simp [div, hb]


theorem Base.isMonotonic_iff_chain (w : List ℚ) :
    isMonotonic w = true ↔ w.Chain' (· ≤ ·) := by
  induction w with
  | nil => simp [isMonotonic]
  | cons a t ih =>
      cases t with
      | nil => simp [isMonotonic]
      | cons b r =>
          rw [isMonotonic, Bool.and_eq_true, ih, List.chain'_cons, decide_eq_true_eq]


/-- C1: for every finite fitted Gaussian mean and every rest wavelength
`restWavelength ≠ 0`, `CalcVelocity.velocity` returns exactly
`c_km_s * (r^2 - 1) / (r^2 + 1)` with
`r = ((restWavelength - mean) / restWavelength) + 1` (the exact relativistic
form); and when the fitted mean is NaN the returned velocity is NaN. -/
theorem velocity_relativistic (avg q : ℚ) (hq : q ≠ 0) :
    CalcVelocity.velocity (FP.fin avg) (FP.fin q)
      = FP.fin (speedOfLight *
          ((((q - avg) / q + 1) ^ 2 - 1) / (((q - avg) / q + 1) ^ 2 + 1)))
    ∧ CalcVelocity.velocity FP.nan (FP.fin q) = FP.nan := by
  constructor
  · have hr : ((q - avg) / q + 1) ^ 2 + 1 ≠ 0 := by positivity
    rw [CalcVelocity.velocity, FP.sub_fin_fin, FP.div_fin_fin _ _ hq,
      FP.add_fin_fin, FP.mul_fin_fin, FP.sub_fin_fin, FP.add_fin_fin]
    rw [show ((q - avg) / q + 1) * ((q - avg) / q + 1) = ((q - avg) / q + 1) ^ 2 by ring]
    rw [FP.div_fin_fin _ _ hr, FP.mul_fin_fin]
  · rfl

/-- Witness for `velocity_relativistic` at `avg = 1`, `restWavelength = 2`. -/
theorem velocity_relativistic_witness :
    (2 : ℚ) ≠ 0
    ∧ (CalcVelocity.velocity (FP.fin 1) (FP.fin 2)
        = FP.fin (speedOfLight *
            ((((2 - 1) / 2 + 1) ^ 2 - 1) / (((2 - 1) / 2 + 1) ^ 2 + 1)))
      ∧ CalcVelocity.velocity FP.nan (FP.fin 2) = FP.nan) :=
  ⟨by norm_num, velocity_relativistic 1 2 (by norm_num)⟩

/-- C7 (counterexample): the wavelength list `[1, 1]` is not strictly
increasing (it has a duplicate), yet `Base.validate` succeeds, because
`pandas.Index.is_monotonic` only checks a non-strict (non-decreasing)
ordering.  This refutes the claim that validation fails exactly when the
wavelengths are not strictly increasing and that duplicates are rejected. -/
theorem validate_duplicates_cex :
    Base.validate [(1 : ℚ), 1] = Except.ok ()
    ∧ ¬ List.Chain' (· < ·) [(1 : ℚ), 1] := by
  constructor
  · rfl
  · simp

/-- C7 (amended): `Base.validate` fails (with the `ValueError` the spec calls
`UnsortedSeriesError`) if and only if the wavelengths are not non-decreasing;
equal consecutive (duplicate) wavelengths are accepted. -/
theorem validate_iff_monotone (w : List ℚ) :
    Base.validate w = Except.ok () ↔ w.Chain' (· ≤ ·) := by
  rw [← Base.isMonotonic_iff_chain, Base.validate]
  by_cases h : Base.isMonotonic w <;> simp [h]

theorem not_isFinite_mul_fin {m : FP} (q : ℚ) (h : m.isFinite = false) :
    (FP.mul m (FP.fin q)).isFinite = false := by
  cases m with
  | nan => rfl
  | inf s => by_cases hq : q = 0 <;> simp [FP.mul, FP.isFinite, hq]
  | fin a => simp [FP.isFinite] at h

theorem not_isFinite_neg {m : FP} (h : m.isFinite = false) :
    (FP.neg m).isFinite = false := by
  cases m with
  | nan => rfl
  | inf s => rfl
  | fin a => simp [FP.isFinite] at h

theorem not_isFinite_add {x y : FP} (hx : x.isFinite = false)
    (hy : y.isFinite = false) : (FP.add x y).isFinite = false := by
  cases x with
  | nan => cases y <;> rfl
  | inf s =>
      cases y with
      | nan => rfl
      | inf t => by_cases hst : s = t <;> simp [FP.add, FP.isFinite, hst]
      | fin b => simp [FP.isFinite] at hy
  | fin a => simp [FP.isFinite] at hx

theorem not_isFinite_add_fin {x : FP} (q : ℚ) (hx : x.isFinite = false) :
    (FP.add x (FP.fin q)).isFinite = false := by
  cases x with
  | nan => rfl
  | inf s => rfl
  | fin a => simp [FP.isFinite] at hx

theorem div_fin_zero_not_isFinite (a : ℚ) :
    (FP.div (FP.fin a) (FP.fin 0)).isFinite = false := by
  by_cases ha : a = 0 <;> simp [FP.div, FP.isFinite, ha]

/-- C8 (counterexample): on the one-sample series with wavelength `5` and
flux `1` — a window whose first and last wavelengths are equal — the
pseudo-continuum fit does not fail: it returns a series (with value NaN,
from the `0 / 0` slope), refuting the claim that the fit fails with an
error rather than returning any result. -/
theorem fitPseudoContinuum_degenerate_cex :
    calcPseudoContinuum.fitPseudoContinuum ⟨[5], [1]⟩
      = Except.ok [((5 : ℚ), FP.nan)] := by
  simp [calcPseudoContinuum.fitPseudoContinuum, FP.sub, FP.add, FP.neg,
    FP.mul, FP.div]

/-- C8 (amended): on every non-empty series whose first and last wavelengths
are equal, `fitPseudoContinuum` succeeds (no error of any kind is raised)
and returns one value per wavelength, every one of them non-finite (NaN or a
signed infinity), because the slope is a float division by zero. -/
theorem fitPseudoContinuum_degenerate (s : Series) (x0 x1 y0 y1 : ℚ)
    (hw0 : s.wave.head? = some x0) (hw1 : s.wave.getLast? = some x1)
    (hf0 : s.flux.head? = some y0) (hf1 : s.flux.getLast? = some y1)
    (hx : x0 = x1) :
    ∃ out, calcPseudoContinuum.fitPseudoContinuum s = Except.ok out
      ∧ out.length = s.wave.length
      ∧ ∀ p ∈ out, (Prod.snd p).isFinite = false := by
  have hm : (FP.div (FP.sub (FP.fin y0) (FP.fin y1))
      (FP.sub (FP.fin x0) (FP.fin x1))).isFinite = false := by
    rw [FP.sub_fin_fin x0 x1, hx, sub_self, FP.sub_fin_fin]
    exact div_fin_zero_not_isFinite _
  have hrun : calcPseudoContinuum.fitPseudoContinuum s = Except.ok
      (s.wave.map (fun w => (w,
        FP.add
          (FP.mul (FP.div (FP.sub (FP.fin y0) (FP.fin y1))
            (FP.sub (FP.fin x0) (FP.fin x1))) (FP.fin w))
          (FP.add
            (FP.neg (FP.mul (FP.div (FP.sub (FP.fin y0) (FP.fin y1))
              (FP.sub (FP.fin x0) (FP.fin x1))) (FP.fin x0)))
            (FP.fin y0))))) := by
    rw [calcPseudoContinuum.fitPseudoContinuum, hw0, hw1, hf0, hf1]
  refine ⟨_, hrun, by simp, ?_⟩
  intro p hp
  simp only [List.mem_map] at hp
  obtain ⟨w, _, rfl⟩ := hp
  exact not_isFinite_add (not_isFinite_mul_fin _ hm)
    (not_isFinite_add_fin _ (not_isFinite_neg (not_isFinite_mul_fin _ hm)))

/-- Witness for `fitPseudoContinuum_degenerate`: a two-sample series with
equal wavelengths (`[5, 5]`) and distinct fluxes (`[1, 2]`). -/
theorem fitPseudoContinuum_degenerate_witness :
    ([(5 : ℚ), 5]).head? = some 5
    ∧ ∃ out, calcPseudoContinuum.fitPseudoContinuum ⟨[5, 5], [1, 2]⟩ = Except.ok out
        ∧ out.length = ([(5 : ℚ), 5]).length
        ∧ ∀ p ∈ out, (Prod.snd p).isFinite = false :=
  ⟨rfl, fitPseudoContinuum_degenerate ⟨[5, 5], [1, 2]⟩ 5 5 1 2 rfl rfl rfl rfl rfl⟩

theorem foldl_min_of_le (t : List ℚ) (a : ℚ) (h : ∀ b ∈ t, a ≤ b) :
    t.foldl min a = a := by
  induction t generalizing a with
  | nil => rfl
  | cons b t ih =>
      rw [List.foldl_cons, min_eq_left (h b (List.mem_cons_self b t))]
      exact ih a (fun c hc => h c (List.mem_cons_of_mem b hc))

theorem npMin_sorted (l : List ℚ) (hsort : l.Chain' (· ≤ ·)) (hne : l ≠ []) :
    npMin l = pyFirst 0 l := by
  cases l with
  | nil => exact absurd rfl hne
  | cons a t =>
      have hp := List.pairwise_cons.mp (List.chain'_iff_pairwise.mp hsort)
      exact foldl_min_of_le t a hp.1

theorem npMax_sorted (l : List ℚ) (hsort : l.Chain' (· ≤ ·)) (hne : l ≠ []) :
    npMax l = pyLast 0 l := by
  induction l with
  | nil => exact absurd rfl hne
  | cons a t ih =>
      cases t with
      | nil => rfl
      | cons b r =>
          obtain ⟨hab, htail⟩ := List.chain'_cons.mp hsort
          show (b :: r).foldl max a = pyLast 0 (a :: b :: r)
          rw [List.foldl_cons, max_eq_right hab]
          exact ih htail (by simp)

theorem pyFirst_le_pyLast (pts : List (ℚ × ℚ))
    (hsort : pts.Chain' (fun p q => p.1 < q.1)) (hne : pts ≠ []) :
    (pyFirst (0, 0) pts).1 ≤ (pyLast (0, 0) pts).1 := by
  induction pts with
  | nil => exact absurd rfl hne
  | cons a t ih =>
      cases t with
      | nil => exact le_refl _
      | cons b r =>
          obtain ⟨hab, htail⟩ := List.chain'_cons.mp hsort
          calc (pyFirst (0, 0) (a :: b :: r)).1 = a.1 := rfl
            _ ≤ b.1 := le_of_lt hab
            _ ≤ (pyLast (0, 0) (b :: r)).1 := ih htail (by simp)

theorem pyFirst_lt_pyLast (a b : ℚ × ℚ) (r : List (ℚ × ℚ))
    (hsort : (a :: b :: r).Chain' (fun p q => p.1 < q.1)) :
    (pyFirst (0, 0) (a :: b :: r)).1 < (pyLast (0, 0) (a :: b :: r)).1 := by
  obtain ⟨hab, htail⟩ := List.chain'_cons.mp hsort
  calc (pyFirst (0, 0) (a :: b :: r)).1 = a.1 := rfl
    _ < b.1 := hab
    _ ≤ (pyLast (0, 0) (b :: r)).1 := pyFirst_le_pyLast _ htail (by simp)

theorem npInterpP_left_clamp (x : ℚ) (pts : List (ℚ × ℚ)) (hne : pts ≠ [])
    (hx : x ≤ (pyFirst (0, 0) pts).1) :
    npInterpP x pts = (pyFirst (0, 0) pts).2 := by
  cases pts with
  | nil => exact absurd rfl hne
  | cons a t =>
      obtain ⟨x1, y1⟩ := a
      cases t with
      | nil => rfl
      | cons b r =>
          obtain ⟨x2, y2⟩ := b
          exact if_pos hx

theorem npInterpP_right_clamp (x : ℚ) (pts : List (ℚ × ℚ))
    (hsort : pts.Chain' (fun p q => p.1 < q.1)) (hne : pts ≠ [])
    (hx : (pyLast (0, 0) pts).1 ≤ x) :
    npInterpP x pts = (pyLast (0, 0) pts).2 := by
  induction pts with
  | nil => exact absurd rfl hne
  | cons a t ih =>
      obtain ⟨x1, y1⟩ := a
      cases t with
      | nil => rfl
      | cons b r =>
          obtain ⟨x2, y2⟩ := b
          obtain ⟨hab, htail⟩ := List.chain'_cons.mp hsort
          have hlast : (pyLast (0, 0) ((x2, y2) :: r)).1 ≤ x := hx
          have hx2last : (x2 : ℚ) ≤ (pyLast (0, 0) ((x2, y2) :: r)).1 :=
            pyFirst_le_pyLast _ htail (by simp)
          have hx1 : ¬ x ≤ x1 := by
            push_neg
            exact lt_of_lt_of_le hab (le_trans hx2last hlast)
          show npInterpP x ((x1, y1) :: (x2, y2) :: r) = _
          rw [npInterpP, if_neg hx1]
          by_cases hx2 : x ≤ x2
          · have hxeq : x = x2 := le_antisymm hx2 (le_trans hx2last hlast)
            cases r with
            | nil =>
                have hne12 : x2 - x1 ≠ 0 := sub_ne_zero.mpr (ne_of_gt hab)
                rw [if_pos hx2]
                show y1 + (y2 - y1) * (x - x1) / (x2 - x1) = y2
                rw [hxeq]
                field_simp
            | cons c r' =>
                exfalso
                have : (x2 : ℚ) < (pyLast (0, 0) ((x2, y2) :: c :: r')).1 :=
                  pyFirst_lt_pyLast _ _ _ htail
                have : (pyLast (0, 0) ((x2, y2) :: c :: r')).1 ≤ x2 := by
                  calc (pyLast (0, 0) ((x2, y2) :: c :: r')).1 ≤ x := hlast
                    _ ≤ x2 := hx2
                linarith
          · rw [if_neg hx2]
            exact ih htail (by simp) hlast

theorem npInterpP_interior (x : ℚ) (pts : List (ℚ × ℚ))
    (hsort : pts.Chain' (fun p q => p.1 < q.1))
    (h1 : (pyFirst (0, 0) pts).1 < x) (h2 : x < (pyLast (0, 0) pts).1) :
    npInterpP x pts = CalcArea.linEvalP x pts := by
  induction pts with
  | nil => rfl
  | cons a t ih =>
      obtain ⟨x1, y1⟩ := a
      cases t with
      | nil =>
          exfalso
          exact absurd (lt_trans h1 h2) (lt_irrefl _)
      | cons b r =>
          obtain ⟨x2, y2⟩ := b
          obtain ⟨hab, htail⟩ := List.chain'_cons.mp hsort
          have hx1 : ¬ x ≤ x1 := not_le.mpr h1
          show npInterpP x ((x1, y1) :: (x2, y2) :: r)
            = CalcArea.linEvalP x ((x1, y1) :: (x2, y2) :: r)
          by_cases hx2 : x ≤ x2
          · cases r with
            | nil => rw [npInterpP, if_neg hx1, if_pos hx2]; rfl
            | cons c r' =>
                have hl : CalcArea.linEvalP x ((x1, y1) :: (x2, y2) :: c :: r')
                    = if x ≤ x2 then y1 + (y2 - y1) * (x - x1) / (x2 - x1)
                      else CalcArea.linEvalP x ((x2, y2) :: c :: r') := rfl
                rw [npInterpP, if_neg hx1, if_pos hx2, hl, if_pos hx2]
          · cases r with
            | nil =>
                exfalso
                exact hx2 (le_of_lt h2)
            | cons c r' =>
                have hl : CalcArea.linEvalP x ((x1, y1) :: (x2, y2) :: c :: r')
                    = if x ≤ x2 then y1 + (y2 - y1) * (x - x1) / (x2 - x1)
                      else CalcArea.linEvalP x ((x2, y2) :: c :: r') := rfl
                rw [npInterpP, if_neg hx1, if_neg hx2, hl, if_neg hx2]
                exact ih htail (lt_of_not_le hx2) h2

theorem zip_pyFirst (w f : List ℚ) (hw : w ≠ []) (hf : f ≠ []) :
    pyFirst (0, 0) (w.zip f) = (pyFirst 0 w, pyFirst 0 f) := by
  cases w with
  | nil => exact absurd rfl hw
  | cons a t =>
      cases f with
      | nil => exact absurd rfl hf
      | cons b s => rfl

theorem zip_pyLast (w : List ℚ) : ∀ (f : List ℚ), f.length = w.length → w ≠ [] →
    pyLast (0, 0) (w.zip f) = (pyLast 0 w, pyLast 0 f) := by
  induction w with
  | nil => intro f _ hw; exact absurd rfl hw
  | cons a t ih =>
      intro f hlen _
      cases f with
      | nil => simp at hlen
      | cons b s =>
          cases t with
          | nil =>
              cases s with
              | nil => rfl
              | cons c s' => simp at hlen
          | cons a' t' =>
              cases s with
              | nil => simp at hlen
              | cons b' s' =>
                  show pyLast (0, 0) ((a, b) :: (a' :: t').zip (b' :: s'))
                    = (pyLast 0 (a :: a' :: t'), pyLast 0 (b :: b' :: s'))
                  have hz : (a' :: t').zip (b' :: s') = (a', b') :: t'.zip s' := rfl
                  rw [hz]
                  have := ih (b' :: s') (by simpa using hlen) (by simp)
                  rw [hz] at this
                  exact this

theorem zip_chain (w f : List ℚ) (hsort : w.Chain' (· < ·))
    (hlen : f.length = w.length) :
    (w.zip f).Chain' (fun p q : ℚ × ℚ => p.1 < q.1) := by
  have hmap : (w.zip f).map Prod.fst = w := List.map_fst_zip w f (le_of_eq hlen.symm)
  rw [← List.chain'_map]
  rw [hmap]
  exact hsort

theorem zip_ne_nil (w f : List ℚ) (hw : w ≠ []) (hf : f ≠ []) :
    w.zip f ≠ [] := by
  cases w with
  | nil => exact absurd rfl hw
  | cons a t =>
      cases f with
      | nil => exact absurd rfl hf
      | cons b s => simp

theorem npInterp_eq_clampEval (continuum : Series) (x : ℚ)
    (hc : continuum.wave ≠ []) (hcsort : continuum.wave.Chain' (· < ·))
    (hclen : continuum.flux.length = continuum.wave.length) :
    npInterp x continuum.wave continuum.flux = CalcArea.clampEval continuum x := by
  have hfne : continuum.flux ≠ [] := by
    intro h
    rw [h] at hclen
    exact hc (List.eq_nil_of_length_eq_zero hclen.symm)
  have hzf := zip_pyFirst continuum.wave continuum.flux hc hfne
  have hzl := zip_pyLast continuum.wave continuum.flux hclen hc
  have hzc := zip_chain continuum.wave continuum.flux hcsort hclen
  have hzn := zip_ne_nil continuum.wave continuum.flux hc hfne
  rw [CalcArea.clampEval]
  by_cases h1 : x ≤ pyFirst 0 continuum.wave
  · rw [if_pos h1, npInterp, npInterpP_left_clamp x _ hzn (by rw [hzf]; exact h1), hzf]
  · rw [if_neg h1]
    by_cases h2 : pyLast 0 continuum.wave ≤ x
    · rw [if_pos h2, npInterp, npInterpP_right_clamp x _ hzc hzn (by rw [hzl]; exact h2), hzl]
    · rw [if_neg h2, npInterp,
        npInterpP_interior x _ hzc (by rw [hzf]; exact lt_of_not_le h1)
          (by rw [hzl]; exact lt_of_not_le h2)]
      rfl

/-- C2 (counterexample): a series spanning wavelengths `[0, 2]` with a
supplied continuum whose own domain is `[0, 1]` (values `y = x`).  The code's
`np.interp` CLAMPS to the continuum's endpoint value (`y(2) = 1`), giving
continuum area `1`, while the claim's linear extrapolation gives `y(2) = 2`
and area `2`.  The claim's formula therefore disagrees with the code. -/
theorem continuum_area_extrapolation_cex :
    CalcArea.continuum_area ⟨[0, 2], [0, 0]⟩ ⟨[0, 1], [0, 1]⟩ = 1
    ∧ CalcArea.continuumAreaClaim ⟨[0, 2], [0, 0]⟩ ⟨[0, 1], [0, 1]⟩ = 2
    ∧ CalcArea.continuum_area ⟨[0, 2], [0, 0]⟩ ⟨[0, 1], [0, 1]⟩
        ≠ CalcArea.continuumAreaClaim ⟨[0, 2], [0, 0]⟩ ⟨[0, 1], [0, 1]⟩ := by
  refine ⟨?_, ?_, ?_⟩
  · norm_num [CalcArea.continuum_area, npInterp, npInterpP, npMin, npMax,
      pyFirst, pyLast]
  · norm_num [CalcArea.continuumAreaClaim, CalcArea.linEval, CalcArea.linEvalP,
      pyFirst, pyLast]
  · norm_num [CalcArea.continuum_area, CalcArea.continuumAreaClaim,
      CalcArea.linEval, CalcArea.linEvalP, npInterp, npInterpP, npMin, npMax,
      pyFirst, pyLast]

/-- C2 (amended): for every non-empty, strictly sorted series and every
non-empty, strictly sorted continuum, `_continuum_area` returns
`(x_last - x_first) * (y(x_first) + y(x_last)) / 2` where `y` evaluates the
supplied continuum by linear interpolation inside its domain and CLAMPS to
the continuum's endpoint values outside it (`numpy.interp` semantics) — it
does not linearly extrapolate. -/
theorem continuum_area_clamped (s continuum : Series)
    (hs : s.wave ≠ []) (hsort : s.wave.Chain' (· < ·))
    (hc : continuum.wave ≠ []) (hcsort : continuum.wave.Chain' (· < ·))
    (hclen : continuum.flux.length = continuum.wave.length) :
    CalcArea.continuum_area s continuum
      = (pyLast 0 s.wave - pyFirst 0 s.wave)
        * (CalcArea.clampEval continuum (pyFirst 0 s.wave)
           + CalcArea.clampEval continuum (pyLast 0 s.wave)) / 2 := by
  have hle : s.wave.Chain' (· ≤ ·) := List.Chain'.imp (fun a b => le_of_lt) hsort
  rw [CalcArea.continuum_area, npMin_sorted s.wave hle hs, npMax_sorted s.wave hle hs,
    npInterp_eq_clampEval continuum _ hc hcsort hclen,
    npInterp_eq_clampEval continuum _ hc hcsort hclen]

/-- Witness for `continuum_area_clamped` at the counterexample input. -/
theorem continuum_area_clamped_witness :
    CalcArea.continuum_area ⟨[0, 2], [0, 0]⟩ ⟨[0, 1], [0, 1]⟩
      = (pyLast 0 [(0 : ℚ), 2] - pyFirst 0 [(0 : ℚ), 2])
        * (CalcArea.clampEval ⟨[0, 1], [0, 1]⟩ (pyFirst 0 [(0 : ℚ), 2])
           + CalcArea.clampEval ⟨[0, 1], [0, 1]⟩ (pyLast 0 [(0 : ℚ), 2])) / 2 :=
  continuum_area_clamped ⟨[0, 2], [0, 0]⟩ ⟨[0, 1], [0, 1]⟩
    (by simp) (by norm_num [List.chain'_cons]) (by simp)
    (by norm_num [List.chain'_cons]) (by simp)

theorem zipWith_div_fin (f : List ℚ) : ∀ (c : List ℚ), (∀ q ∈ c, q ≠ 0) →
    List.zipWith (fun a b => FP.div (FP.fin a) (FP.fin b)) f c
      = (List.zipWith (· / ·) f c).map FP.fin := by
  induction f with
  | nil => intro c _; rfl
  | cons a t ih =>
      intro c hc
      cases c with
      | nil => rfl
      | cons b s =>
          show FP.div (FP.fin a) (FP.fin b) :: _ = _
          rw [List.zipWith_cons_cons, List.map_cons,
            FP.div_fin_fin a b (hc b (List.mem_cons_self b s))]
          congr 1
          exact ih s (fun q hq => hc q (List.mem_cons_of_mem b hq))

theorem trapzFP_map_fin (y : List ℚ) : ∀ (x : List ℚ),
    CalcPEW.trapzFP (y.map FP.fin) x = FP.fin (trapz y x) := by
  induction y with
  | nil => intro x; cases x <;> rfl
  | cons y1 t ih =>
      intro x
      cases t with
      | nil => cases x <;> rfl
      | cons y2 t' =>
          cases x with
          | nil => rfl
          | cons x1 xs =>
              cases xs with
              | nil => rfl
              | cons x2 xs' =>
                  show FP.add
                      (FP.div (FP.mul (FP.fin (x2 - x1)) (FP.add (FP.fin y1) (FP.fin y2)))
                        (FP.fin 2))
                      (CalcPEW.trapzFP ((y2 :: t').map FP.fin) (x2 :: xs')) = _
                  rw [FP.add_fin_fin, FP.mul_fin_fin,
                    FP.div_fin_fin _ 2 (by norm_num), ih (x2 :: xs'), FP.add_fin_fin]
                  rfl

theorem trapz_eq_sum (y : List ℚ) : ∀ (x : List ℚ), y.length = x.length →
    trapz y x = ∑ i in Finset.range (x.length - 1),
      (x.getD (i + 1) 0 - x.getD i 0) * (y.getD i 0 + y.getD (i + 1) 0) / 2 := by
  induction y with
  | nil =>
      intro x hl
      obtain rfl : x = [] := List.eq_nil_of_length_eq_zero hl.symm
      rfl
  | cons y1 t ih =>
      intro x hl
      cases x with
      | nil => simp at hl
      | cons x1 xs =>
          cases t with
          | nil =>
              obtain rfl : xs = [] := by
                have : xs.length = 0 := by simpa using hl.symm
                exact List.eq_nil_of_length_eq_zero this
              simp [trapz]
          | cons y2 t' =>
              cases xs with
              | nil => simp at hl
              | cons x2 xs' =>
                  have hl' : (y2 :: t').length = (x2 :: xs').length := by simpa using hl
                  show (x2 - x1) * (y1 + y2) / 2 + trapz (y2 :: t') (x2 :: xs') = _
                  rw [ih (x2 :: xs') hl']
                  have hres : (x1 :: x2 :: xs').length - 1 = xs'.length + 1 := by simp
                  rw [hres, Finset.sum_range_succ']
                  have hterm : ∀ i ∈ Finset.range ((x2 :: xs').length - 1),
                      ((x2 :: xs').getD (i + 1) 0 - (x2 :: xs').getD i 0)
                        * ((y2 :: t').getD i 0 + (y2 :: t').getD (i + 1) 0) / 2
                      = ((x1 :: x2 :: xs').getD (i + 1 + 1) 0 - (x1 :: x2 :: xs').getD (i + 1) 0)
                        * ((y1 :: y2 :: t').getD (i + 1) 0 + (y1 :: y2 :: t').getD (i + 1 + 1) 0) / 2 := by
                    intro i _
                    simp [List.getD_cons_succ]
                  rw [Finset.sum_congr rfl hterm]
                  have hlen2 : (x2 :: xs').length - 1 = xs'.length := by simp
                  rw [hlen2]
                  simp [List.getD_cons_succ, List.getD_cons_zero]
                  ring

theorem zipWith_div_getD (f : List ℚ) : ∀ (c : List ℚ) (i : ℕ), i < f.length →
    i < c.length →
    (List.zipWith (· / ·) f c).getD i 0 = f.getD i 0 / c.getD i 0 := by
  induction f with
  | nil => intro c i hf _; simp at hf
  | cons a t ih =>
      intro c i hf hc
      cases c with
      | nil => simp at hc
      | cons b s =>
          cases i with
          | zero => rfl
          | succ j =>
              rw [List.zipWith_cons_cons, List.getD_cons_succ, List.getD_cons_succ,
                List.getD_cons_succ]
              exact ih s j (by simpa using hf) (by simpa using hc)

/-- C3: for every non-empty series and every continuum aligned to the same
wavelengths with all continuum values nonzero, `CalcPEW.pew` returns exactly
`(x_last - x_first)` minus the composite-trapezoid integral of the
element-wise ratio `flux / continuum` over the wavelength axis. -/
theorem pew_trapezoid (s continuum : Series) (hne : s.wave ≠ [])
    (hflen : s.flux.length = s.wave.length)
    (hcw : continuum.wave = s.wave)
    (hclen : continuum.flux.length = s.wave.length)
    (hnz : ∀ q ∈ continuum.flux, q ≠ 0) :
    CalcPEW.pew s continuum
      = FP.fin ((pyLast 0 s.wave - pyFirst 0 s.wave)
          - ∑ i in Finset.range (s.wave.length - 1),
              (s.wave.getD (i + 1) 0 - s.wave.getD i 0)
                * (s.flux.getD i 0 / continuum.flux.getD i 0
                   + s.flux.getD (i + 1) 0 / continuum.flux.getD (i + 1) 0) / 2) := by
  rw [CalcPEW.pew, zipWith_div_fin s.flux continuum.flux hnz, trapzFP_map_fin,
    FP.sub_fin_fin]
  congr 1
  have hzlen : (List.zipWith (· / ·) s.flux continuum.flux).length = s.wave.length := by
    rw [List.length_zipWith, hflen, hclen, min_self]
  rw [trapz_eq_sum _ s.wave hzlen]
  congr 1
  apply Finset.sum_congr rfl
  intro i hi
  have hi' : i < s.wave.length - 1 := Finset.mem_range.mp hi
  have hi1 : i + 1 < s.wave.length := by omega
  have hi0 : i < s.wave.length := by omega
  rw [zipWith_div_getD s.flux continuum.flux i (by omega) (by omega),
    zipWith_div_getD s.flux continuum.flux (i + 1) (by omega) (by omega)]

/-- Witness for `pew_trapezoid`: wavelengths `[0, 1]`, flux `[2, 3]`,
continuum `[1, 1]`, giving `pEW = (1 - 0) - (1 - 0)*(2 + 3)/2 = -3/2`. -/
theorem pew_trapezoid_witness :
    CalcPEW.pew ⟨[0, 1], [2, 3]⟩ ⟨[0, 1], [1, 1]⟩ = FP.fin (-3 / 2) := by
  have h := pew_trapezoid ⟨[0, 1], [2, 3]⟩ ⟨[0, 1], [1, 1]⟩
    (by simp) rfl rfl rfl (by decide)
  rw [h]
  norm_num [Finset.sum_range_one, pyFirst, pyLast]

theorem trapz_replicate (x : List ℚ) (k : ℚ) :
    trapz (List.replicate x.length k) x = k * (pyLast 0 x - pyFirst 0 x) := by
  induction x with
  | nil =>
      show (0 : ℚ) = k * (0 - 0)
      ring
  | cons x1 xs ih =>
      cases xs with
      | nil =>
          show (0 : ℚ) = k * (x1 - x1)
          ring
      | cons x2 xs' =>
          show (x2 - x1) * (k + k) / 2 + trapz (List.replicate (x2 :: xs').length k) (x2 :: xs')
              = k * (pyLast 0 (x1 :: x2 :: xs') - pyFirst 0 (x1 :: x2 :: xs'))
          rw [ih]
          show (x2 - x1) * (k + k) / 2 + k * (pyLast 0 (x2 :: xs') - x2)
              = k * (pyLast 0 (x2 :: xs') - x1)
          ring

theorem npInterpP_const (x c : ℚ) (pts : List (ℚ × ℚ)) (hne : pts ≠ [])
    (hc : ∀ p ∈ pts, p.2 = c) : npInterpP x pts = c := by
  induction pts with
  | nil => exact absurd rfl hne
  | cons a t ih =>
      obtain ⟨x1, y1⟩ := a
      have hy1 : y1 = c := hc (x1, y1) (List.mem_cons_self _ _)
      cases t with
      | nil => exact hy1
      | cons b r =>
          obtain ⟨x2, y2⟩ := b
          have hy2 : y2 = c := hc (x2, y2) (by simp)
          rw [npInterpP]
          by_cases h1 : x ≤ x1
          · rw [if_pos h1]; exact hy1
          · rw [if_neg h1]
            by_cases h2 : x ≤ x2
            · rw [if_pos h2, hy1, hy2]
              simp
            · rw [if_neg h2]
              exact ih (by simp) (fun p hp => hc p (List.mem_cons_of_mem _ hp))

theorem npInterp_const (x c : ℚ) (w : List ℚ) (hw : w ≠ []) :
    npInterp x w (List.replicate w.length c) = c := by
  have hfne : List.replicate w.length c ≠ [] := by
    intro h
    have hlen := congrArg List.length h
    simp at hlen
    exact hw hlen
  apply npInterpP_const x c _ (zip_ne_nil _ _ hw hfne)
  intro p hp
  have := (List.of_mem_zip hp).2
  exact List.eq_of_mem_replicate this

theorem zipWith_div_replicate (n : ℕ) (c : ℚ) :
    List.zipWith (fun a b => FP.div (FP.fin a) (FP.fin b))
        (List.replicate n c) (List.replicate n c)
      = List.replicate n (FP.div (FP.fin c) (FP.fin c)) := by
  induction n with
  | zero => rfl
  | succ m ih => simp only [List.replicate_succ, List.zipWith_cons_cons, ih]

/-- C4 (counterexample): for the constant `c = 0` — flux identically `0` and
continuum the same constant `0` at the same wavelengths — the element-wise
ratio is `0.0 / 0.0 = NaN`, the trapezoid integral of it is NaN, and the pEW
is NaN, not `0`.  The claim fails for `c = 0` (the area is still `0` there,
but the claimed `pew = 0` is not). -/
theorem flat_zero_pew_nan_cex :
    CalcPEW.pew ⟨[0, 1], List.replicate 2 (0 : ℚ)⟩ ⟨[0, 1], List.replicate 2 (0 : ℚ)⟩
        = FP.nan
    ∧ FP.nan ≠ FP.fin 0 := by
  constructor
  · norm_num [CalcPEW.pew, CalcPEW.trapzFP, pyFirst, pyLast, List.replicate,
      FP.div, FP.add, FP.mul, FP.sub, FP.neg]
  · decide

/-- C4 (amended): for every non-empty strictly-sorted wavelength axis and
every NONZERO constant `c`, a series with constant flux `c` measured against
a continuum with the same constant value at the same wavelengths has
`area = 0` and `pew = 0` exactly.  (For `c = 0` the pEW is NaN, see the
counterexample; zero continuum values are undefined input for the pEW per
the spec's own precondition.) -/
theorem flat_spectrum_zero (wave : List ℚ) (c : ℚ) (hne : wave ≠ [])
    (hsort : wave.Chain' (· < ·)) (hc : c ≠ 0) :
    CalcArea.area ⟨wave, List.replicate wave.length c⟩
        ⟨wave, List.replicate wave.length c⟩ = 0
    ∧ CalcPEW.pew ⟨wave, List.replicate wave.length c⟩
        ⟨wave, List.replicate wave.length c⟩ = FP.fin 0 := by
  constructor
  · rw [CalcArea.area, CalcArea.continuum_area, CalcArea.flux_area]
    show (pyLast 0 wave - pyFirst 0 wave)
        * (npInterp (npMin wave) wave (List.replicate wave.length c)
           + npInterp (npMax wave) wave (List.replicate wave.length c)) / 2
        - trapz (List.replicate wave.length c) wave = 0
    rw [npInterp_const _ c wave hne, npInterp_const _ c wave hne, trapz_replicate]
    ring
  · rw [CalcPEW.pew]
    show FP.sub (FP.fin (pyLast 0 wave - pyFirst 0 wave))
        (CalcPEW.trapzFP
          (List.zipWith (fun f g => FP.div (FP.fin f) (FP.fin g))
            (List.replicate wave.length c) (List.replicate wave.length c)) wave)
      = FP.fin 0
    rw [zipWith_div_replicate, FP.div_fin_fin c c hc, div_self hc,
      show List.replicate wave.length (FP.fin 1)
          = (List.replicate wave.length (1 : ℚ)).map FP.fin by
        rw [List.map_replicate],
      trapzFP_map_fin, FP.sub_fin_fin, trapz_replicate]
    norm_num

/-- Witness for `flat_spectrum_zero` at wavelengths `[0, 1, 2]`, `c = 7`. -/
theorem flat_spectrum_zero_witness :
    CalcArea.area ⟨[0, 1, 2], List.replicate ([(0 : ℚ), 1, 2]).length 7⟩
        ⟨[0, 1, 2], List.replicate ([(0 : ℚ), 1, 2]).length 7⟩ = 0
    ∧ CalcPEW.pew ⟨[0, 1, 2], List.replicate ([(0 : ℚ), 1, 2]).length 7⟩
        ⟨[0, 1, 2], List.replicate ([(0 : ℚ), 1, 2]).length 7⟩ = FP.fin 0 :=
  flat_spectrum_zero [0, 1, 2] 7 (by simp)
    (by norm_num [List.chain'_cons]) (by norm_num)

theorem perturbPairs_length (N : ℕ) :
    (perturbPairs N).length = (2 * N + 1) ^ 2 := by
  rw [SpectrumAccessor.perturbPairs, List.length_flatMap]
  have h1 : List.map (List.length ∘ fun (a : ℕ) => (List.range (2 * N + 1)).map
        (fun (b : ℕ) => ((a : ℤ) - (N : ℤ), (N : ℤ) - (b : ℤ))))
      (List.range (2 * N + 1))
      = List.map (fun _ => 2 * N + 1) (List.range (2 * N + 1)) := by
    apply List.map_congr_left
    intro a _
    simp
  rw [h1, List.map_const', List.length_range, List.sum_replicate, smul_eq_mul,
    pow_two]

theorem perturbPairs_mem (N : ℕ) (ij : ℤ × ℤ) (h : ij ∈ perturbPairs N) :
    -(N : ℤ) ≤ ij.1 ∧ ij.1 ≤ (N : ℤ) ∧ -(N : ℤ) ≤ ij.2 ∧ ij.2 ≤ (N : ℤ) := by
  rw [SpectrumAccessor.perturbPairs] at h
  simp only [List.mem_flatMap, List.mem_map, List.mem_range] at h
  obtain ⟨a, ha, b, hb, rfl⟩ := h
  refine ⟨?_, ?_, ?_, ?_⟩
  · show -(N : ℤ) ≤ (a : ℤ) - (N : ℤ)
    omega
  · show (a : ℤ) - (N : ℤ) ≤ (N : ℤ)
    omega
  · show -(N : ℤ) ≤ (N : ℤ) - (b : ℤ)
    omega
  · show (N : ℤ) - (b : ℤ) ≤ (N : ℤ)
    omega

theorem flatMap_range_map_getElem? {α : Type} (m : ℕ) (g : ℕ → ℕ → α) :
    ∀ (l : List ℕ) (q r : ℕ), r < m → ∀ a, l[q]? = some a →
      (l.flatMap fun x => (List.range m).map (g x))[q * m + r]? = some (g a r) := by
  intro l
  induction l with
  | nil => intro q r hr a ha; simp at ha
  | cons x t ih =>
      intro q r hr a ha
      cases q with
      | zero =>
          obtain rfl : x = a := by simpa using ha
          rw [List.flatMap_cons, Nat.zero_mul, Nat.zero_add,
            List.getElem?_append_left (by simpa using hr), List.getElem?_map,
            List.getElem?_range hr, Option.map_some']
      | succ q' =>
          have ha' : t[q']? = some a := by simpa using ha
          rw [List.flatMap_cons,
            List.getElem?_append_right (by
              simp only [List.length_map, List.length_range]
              calc m ≤ q' * m + m := Nat.le_add_left m _
                _ ≤ q' * m + m + r := Nat.le_add_right _ _
                _ = (q' + 1) * m + r := by ring)]
          have harith : (q' + 1) * m + r - (List.map (g x) (List.range m)).length
              = q' * m + r := by
            simp only [List.length_map, List.length_range]
            have : (q' + 1) * m = q' * m + m := by ring
            omega
          rw [harith]
          exact ih q' r hr a ha'

theorem perturbPairs_getElem? (N k : ℕ) (hk : k < (2 * N + 1) ^ 2) :
    (perturbPairs N)[k]? = some (((k / (2 * N + 1) : ℕ) : ℤ) - (N : ℤ),
      (N : ℤ) - ((k % (2 * N + 1) : ℕ) : ℤ)) := by
  have hm : 0 < 2 * N + 1 := by omega
  have hk2 : k < (2 * N + 1) * (2 * N + 1) := by rw [← pow_two]; exact hk
  have hq : k / (2 * N + 1) < 2 * N + 1 := Nat.div_lt_of_lt_mul hk2
  have hr : k % (2 * N + 1) < 2 * N + 1 := Nat.mod_lt _ hm
  have hrange : (List.range (2 * N + 1))[k / (2 * N + 1)]? = some (k / (2 * N + 1)) :=
    List.getElem?_range hq
  have h := flatMap_range_map_getElem? (2 * N + 1)
    (fun (a : ℕ) (b : ℕ) => ((a : ℤ) - (N : ℤ), (N : ℤ) - (b : ℤ)))
    (List.range (2 * N + 1)) (k / (2 * N + 1)) (k % (2 * N + 1)) hr _ hrange
  rw [Nat.div_add_mod' k (2 * N + 1)] at h
  rw [SpectrumAccessor.perturbPairs]
  exact h

theorem perturbPairs_head (N : ℕ) :
    ∃ rest, perturbPairs N = (-(N : ℤ), (N : ℤ)) :: rest := by
  have h0 := perturbPairs_getElem? N 0 (by positivity)
  rw [Nat.zero_div, Nat.zero_mod, Nat.cast_zero, zero_sub, sub_zero] at h0
  cases hpp : perturbPairs N with
  | nil => rw [hpp] at h0; simp at h0
  | cons a t =>
      rw [hpp] at h0
      simp only [List.getElem?_cons_zero, Option.some.injEq] at h0
      exact ⟨t, by rw [h0]⟩

theorem processPairs_cons (pts : List (ℚ × ℚ)) (s e : ℕ) (i j : ℤ)
    (rest : List (ℤ × ℤ)) :
    processPairs pts s e ((i, j) :: rest)
      = if (s : ℤ) + i < 0 ∨ (pts.length : ℤ) ≤ (e : ℤ) + j
        then ([], some PyErr.samplingRangeError)
        else if (pySlice pts ((s : ℤ) + i) ((e : ℤ) + j)).length = 0
        then ([], some PyErr.indexError)
        else if (pySlice pts ((s : ℤ) + i) ((e : ℤ) + j)).length < 4
        then ([], some PyErr.typeError)
        else (pySlice pts ((s : ℤ) + i) ((e : ℤ) + j)
                :: (processPairs pts s e rest).1,
              (processPairs pts s e rest).2) := rfl

theorem processPairs_ok (pts : List (ℚ × ℚ)) (s e : ℕ) :
    ∀ (l : List (ℤ × ℤ)), (processPairs pts s e l).2 = none →
      (processPairs pts s e l).1
        = l.map (fun ij => pySlice pts ((s : ℤ) + ij.1) ((e : ℤ) + ij.2)) := by
  intro l
  induction l with
  | nil => intro _; rfl
  | cons ij rest ih =>
      obtain ⟨i, j⟩ := ij
      rw [processPairs_cons]
      by_cases h1 : (s : ℤ) + i < 0 ∨ (pts.length : ℤ) ≤ (e : ℤ) + j
      · rw [if_pos h1]; intro h; simp at h
      · rw [if_neg h1]
        by_cases h2 : (pySlice pts ((s : ℤ) + i) ((e : ℤ) + j)).length = 0
        · rw [if_pos h2]; intro h; simp at h
        · rw [if_neg h2]
          by_cases h3 : (pySlice pts ((s : ℤ) + i) ((e : ℤ) + j)).length < 4
          · rw [if_pos h3]; intro h; simp at h
          · rw [if_neg h3]
            intro h
            rw [List.map_cons]
            show pySlice pts ((s : ℤ) + i) ((e : ℤ) + j) :: (processPairs pts s e rest).1 = _
            rw [ih h]

theorem processPairs_ok_mem (pts : List (ℚ × ℚ)) (s e : ℕ) :
    ∀ (l : List (ℤ × ℤ)), (processPairs pts s e l).2 = none →
      ∀ ij ∈ l, ¬((s : ℤ) + ij.1 < 0 ∨ (pts.length : ℤ) ≤ (e : ℤ) + ij.2)
        ∧ 4 ≤ (pySlice pts ((s : ℤ) + ij.1) ((e : ℤ) + ij.2)).length := by
  intro l
  induction l with
  | nil => intro _ ij hij; simp at hij
  | cons ij0 rest ih =>
      obtain ⟨i, j⟩ := ij0
      rw [processPairs_cons]
      by_cases h1 : (s : ℤ) + i < 0 ∨ (pts.length : ℤ) ≤ (e : ℤ) + j
      · rw [if_pos h1]; intro h; simp at h
      · rw [if_neg h1]
        by_cases h2 : (pySlice pts ((s : ℤ) + i) ((e : ℤ) + j)).length = 0
        · rw [if_pos h2]; intro h; simp at h
        · rw [if_neg h2]
          by_cases h3 : (pySlice pts ((s : ℤ) + i) ((e : ℤ) + j)).length < 4
          · rw [if_pos h3]; intro h; simp at h
          · rw [if_neg h3]
            intro h ij hij
            rcases List.mem_cons.mp hij with hij0 | hmem
            · rw [hij0]
              refine ⟨h1, ?_⟩
              show 4 ≤ (pySlice pts ((s : ℤ) + i) ((e : ℤ) + j)).length
              omega
            · exact ih h ij hmem

theorem sampleFeatureProperties_eq (pts : List (ℚ × ℚ)) (featStart featEnd : ℚ)
    (nstep idxStart idxEnd : ℕ)
    (hs : pts.findIdx? (fun p => p.1 == featStart) = some idxStart)
    (he : pts.findIdx? (fun p => p.1 == featEnd) = some idxEnd) :
    sampleFeatureProperties pts featStart featEnd nstep
      = if (idxEnd : ℤ) - (idxStart : ℤ) ≤ 10 then ([], some PyErr.valueError)
        else processPairs pts idxStart idxEnd (perturbPairs nstep) := by
  rw [SpectrumAccessor.sampleFeatureProperties, hs, he]

theorem pySlice_def {α : Type} (l : List α) (a b : ℤ) :
    pySlice l a b
      = (l.take (if b < 0 then max ((l.length : ℤ) + b) 0
                 else min b (l.length : ℤ)).toNat).drop
          (if a < 0 then max ((l.length : ℤ) + a) 0
           else min a (l.length : ℤ)).toNat := rfl

theorem pySlice_nonneg {α : Type} (l : List α) (a b : ℤ) (ha : 0 ≤ a) (hb : 0 ≤ b)
    (hbn : b ≤ (l.length : ℤ)) :
    pySlice l a b = (l.take b.toNat).drop a.toNat := by
  rw [pySlice_def, if_neg (not_lt.mpr ha), if_neg (not_lt.mpr hb), min_eq_left hbn]
  by_cases han : a ≤ (l.length : ℤ)
  · rw [min_eq_left han]
  · rw [min_eq_right (le_of_not_le han)]
    rw [List.drop_eq_nil_of_le, List.drop_eq_nil_of_le]
    · simp only [List.length_take]
      omega
    · simp only [List.length_take]
      omega

theorem pySlice_length {α : Type} (l : List α) (a b : ℤ) (ha : 0 ≤ a) (hb : 0 ≤ b)
    (hbn : b ≤ (l.length : ℤ)) :
    (pySlice l a b).length = (b - a).toNat := by
  rw [pySlice_nonneg l a b ha hb hbn, List.length_drop, List.length_take]
  omega

theorem pySlice_getElem? {α : Type} (l : List α) (a b : ℤ) (ha : 0 ≤ a) (hb : 0 ≤ b)
    (hbn : b ≤ (l.length : ℤ)) (m : ℕ) :
    (pySlice l a b)[m]? = if (a + (m : ℤ)) < b then l[a.toNat + m]? else none := by
  rw [pySlice_nonneg l a b ha hb hbn, List.getElem?_drop, List.getElem?_take]
  by_cases h : (a + (m : ℤ)) < b
  · rw [if_pos (by omega : a.toNat + m < b.toNat), if_pos h]
  · rw [if_neg (by omega : ¬ a.toNat + m < b.toNat), if_neg h]

/-- C5: for every sampling call with perturbation radius `nstep = N ≥ 0` that
completes without error, the callback receives exactly `(2N+1)^2` samples,
one per perturbation pair in iteration order — the sample sequence is the
map of the slice over the perturbation grid, whose `k`-th pair is
`(k / (2N+1) - N, N - k % (2N+1))`: `i` ascends over `[-N, N]` and, within
each `i`, `j` descends over `[N, -N]` — each invocation receiving the
perturbed sub-series `self._obj[idxStart + i : idxEnd + j]`. -/
theorem sampling_callback_count (pts : List (ℚ × ℚ)) (featStart featEnd : ℚ)
    (N idxStart idxEnd : ℕ)
    (hs : pts.findIdx? (fun p => p.1 == featStart) = some idxStart)
    (he : pts.findIdx? (fun p => p.1 == featEnd) = some idxEnd)
    (hok : (sampleFeatureProperties pts featStart featEnd N).2 = none) :
    (sampleFeatureProperties pts featStart featEnd N).1.length = (2 * N + 1) ^ 2
    ∧ (sampleFeatureProperties pts featStart featEnd N).1
        = (perturbPairs N).map
            (fun ij => pySlice pts ((idxStart : ℤ) + ij.1) ((idxEnd : ℤ) + ij.2))
    ∧ ∀ k, k < (2 * N + 1) ^ 2 →
        (perturbPairs N)[k]? = some (((k / (2 * N + 1) : ℕ) : ℤ) - (N : ℤ),
          (N : ℤ) - ((k % (2 * N + 1) : ℕ) : ℤ)) := by
  rw [sampleFeatureProperties_eq pts featStart featEnd N idxStart idxEnd hs he]
    at hok ⊢
  by_cases hw : (idxEnd : ℤ) - (idxStart : ℤ) ≤ 10
  · rw [if_pos hw] at hok; simp at hok
  · rw [if_neg hw] at hok ⊢
    have h1 := processPairs_ok pts idxStart idxEnd (perturbPairs N) hok
    exact ⟨by rw [h1, List.length_map, perturbPairs_length], h1,
      fun k hk => perturbPairs_getElem? N k hk⟩

/-- Witness for `sampling_callback_count`: a 20-sample spectrum, feature
bounds at wavelengths 0 and 15 (indices 0 and 15), `nstep = 0`: exactly one
callback. -/
theorem sampling_callback_count_witness :
    (SpectrumAccessor.sampleFeatureProperties pts20 0 15 0).1.length
      = (2 * 0 + 1) ^ 2 :=
  (sampling_callback_count pts20 0 15 0 0 15 (by decide) (by decide) (by decide)).1

/-- C6: when any perturbed boundary index falls outside the spectrum range
(start index below 0 or end index reaching past the last position), a
sampling call whose feature bounds were found and whose width guard passed
fails with `SamplingRangeError`, and the whole call aborts with no partial
result and no callback invocation: the violation is extremal at the very
first pair `(-N, N)`, so the loop raises before measuring any sample. -/
theorem sampling_range_error_fatal (pts : List (ℚ × ℚ)) (featStart featEnd : ℚ)
    (N idxStart idxEnd : ℕ)
    (hs : pts.findIdx? (fun p => p.1 == featStart) = some idxStart)
    (he : pts.findIdx? (fun p => p.1 == featEnd) = some idxEnd)
    (hw : ¬ (idxEnd : ℤ) - (idxStart : ℤ) ≤ 10)
    (hout : ∃ ij ∈ perturbPairs N,
      (idxStart : ℤ) + ij.1 < 0 ∨ (pts.length : ℤ) ≤ (idxEnd : ℤ) + ij.2) :
    sampleFeatureProperties pts featStart featEnd N
      = ([], some PyErr.samplingRangeError) := by
  obtain ⟨ij, hmem, hij⟩ := hout
  obtain ⟨hb1, hb2, hb3, hb4⟩ := perturbPairs_mem N ij hmem
  have hfirst : (idxStart : ℤ) + -(N : ℤ) < 0
      ∨ (pts.length : ℤ) ≤ (idxEnd : ℤ) + (N : ℤ) := by
    rcases hij with h | h
    · left; omega
    · right; omega
  obtain ⟨rest, hrest⟩ := perturbPairs_head N
  rw [sampleFeatureProperties_eq pts featStart featEnd N idxStart idxEnd hs he,
    if_neg hw, hrest, processPairs_cons, if_pos hfirst]

/-- Witness for `sampling_range_error_fatal`: with `idxStart = 0` and
`nstep = 5` the first perturbed start index is `-5 < 0`. -/
theorem sampling_range_error_fatal_witness :
    SpectrumAccessor.sampleFeatureProperties pts20 0 15 5
      = ([], some PyErr.samplingRangeError) :=
  sampling_range_error_fatal pts20 0 15 5 0 15 (by decide) (by decide)
    (by decide) (by decide)

/-- C9: on a sampling call that completes without error, the sample measured
for perturbation pair `(i, j)` (the `k`-th callback argument) is the
end-exclusive positional slice `[idxStart + i, idxEnd + j)` of the series:
its length is `(idxEnd + j) - (idxStart + i)`, its `m`-th element is the
series element at position `idxStart + i + m`, and positions at or past
`idxEnd + j` are excluded — in particular the flux sample at index
`idxEnd + j` is never part of the measured window. -/
theorem sampling_slice_exclusive (pts : List (ℚ × ℚ)) (featStart featEnd : ℚ)
    (N idxStart idxEnd k : ℕ) (i j : ℤ)
    (hs : pts.findIdx? (fun p => p.1 == featStart) = some idxStart)
    (he : pts.findIdx? (fun p => p.1 == featEnd) = some idxEnd)
    (hok : (sampleFeatureProperties pts featStart featEnd N).2 = none)
    (hp : (perturbPairs N)[k]? = some (i, j)) :
    (sampleFeatureProperties pts featStart featEnd N).1[k]?
        = some (pySlice pts ((idxStart : ℤ) + i) ((idxEnd : ℤ) + j))
    ∧ (pySlice pts ((idxStart : ℤ) + i) ((idxEnd : ℤ) + j)).length
        = (((idxEnd : ℤ) + j) - ((idxStart : ℤ) + i)).toNat
    ∧ ∀ m : ℕ, (pySlice pts ((idxStart : ℤ) + i) ((idxEnd : ℤ) + j))[m]?
        = if ((idxStart : ℤ) + i + (m : ℤ)) < (idxEnd : ℤ) + j
          then pts[((idxStart : ℤ) + i).toNat + m]? else none := by
  rw [sampleFeatureProperties_eq pts featStart featEnd N idxStart idxEnd hs he]
    at hok ⊢
  by_cases hw : (idxEnd : ℤ) - (idxStart : ℤ) ≤ 10
  · rw [if_pos hw] at hok; simp at hok
  · rw [if_neg hw] at hok ⊢
    have hmem : (i, j) ∈ perturbPairs N := List.getElem?_mem hp
    obtain ⟨hb1, hb2, hb3, hb4⟩ := perturbPairs_mem N (i, j) hmem
    have hrange := (processPairs_ok_mem pts idxStart idxEnd (perturbPairs N)
      hok (i, j) hmem).1
    push_neg at hrange
    obtain ⟨hra, hrb⟩ := hrange
    obtain ⟨rest0, hrest0⟩ := perturbPairs_head N
    have hmem0 : (-(N : ℤ), (N : ℤ)) ∈ perturbPairs N := by
      rw [hrest0]; exact List.mem_cons_self _ _
    have h0 := (processPairs_ok_mem pts idxStart idxEnd (perturbPairs N)
      hok _ hmem0).1
    push_neg at h0
    have hw' : 10 < (idxEnd : ℤ) - (idxStart : ℤ) := not_le.mp hw
    have hb0 : 0 ≤ (idxEnd : ℤ) + j := by
      have := h0.1
      omega
    have hbn : (idxEnd : ℤ) + j ≤ (pts.length : ℤ) := le_of_lt hrb
    refine ⟨?_, pySlice_length pts _ _ hra hb0 hbn,
      fun m => pySlice_getElem? pts _ _ hra hb0 hbn m⟩
    rw [processPairs_ok pts idxStart idxEnd (perturbPairs N) hok,
      List.getElem?_map, hp, Option.map_some']

/-- Witness for `sampling_slice_exclusive`: the single `nstep = 0` sample
over indices `[0, 15)`; the element at the end boundary (position 15) is
excluded. -/
theorem sampling_slice_exclusive_witness :
    (SpectrumAccessor.sampleFeatureProperties pts20 0 15 0).1[0]?
        = some (pySlice pts20 (((0 : ℕ) : ℤ) + 0) (((15 : ℕ) : ℤ) + 0))
    ∧ (pySlice pts20 (((0 : ℕ) : ℤ) + 0) (((15 : ℕ) : ℤ) + 0))[15]? = none := by
  have h := sampling_slice_exclusive pts20 0 15 0 0 15 0 0 0 (by decide)
    (by decide) (by decide) (by decide)
  refine ⟨h.1, ?_⟩
  rw [h.2.2 15]
  norm_num

/-- C10: the sampling operation is only defined when `featStart` and
`featEnd` are each exactly (floating-point) equal to a wavelength present in
the series: if either is absent, `np.where(self.wave == ...)[0][0]` raises
an uncaught `IndexError` (not one of the typed errors) before any
perturbation sample is measured — the callback trace is empty. -/
theorem sampling_requires_exact_wavelengths (pts : List (ℚ × ℚ))
    (featStart featEnd : ℚ) (N : ℕ)
    (h : (∀ p ∈ pts, p.1 ≠ featStart) ∨ (∀ p ∈ pts, p.1 ≠ featEnd)) :
    sampleFeatureProperties pts featStart featEnd N
      = ([], some PyErr.indexError) := by
  rcases h with h | h
  · have hn : pts.findIdx? (fun p => p.1 == featStart) = none :=
      List.findIdx?_eq_none_iff.mpr
        (fun p hp => beq_eq_false_iff_ne.mpr (h p hp))
    rw [SpectrumAccessor.sampleFeatureProperties, hn]
  · have hn : pts.findIdx? (fun p => p.1 == featEnd) = none :=
      List.findIdx?_eq_none_iff.mpr
        (fun p hp => beq_eq_false_iff_ne.mpr (h p hp))
    cases hfs : pts.findIdx? (fun p => p.1 == featStart) with
    | none => rw [SpectrumAccessor.sampleFeatureProperties, hfs]
    | some idxStart => rw [SpectrumAccessor.sampleFeatureProperties, hfs, hn]

/-- Witness for `sampling_requires_exact_wavelengths`: wavelength `100` is
not present in the 20-sample spectrum. -/
theorem sampling_requires_exact_wavelengths_witness :
    SpectrumAccessor.sampleFeatureProperties pts20 100 15 3
      = ([], some PyErr.indexError) :=
  sampling_requires_exact_wavelengths pts20 100 15 3 (Or.inl (by decide))

end LEED
